import Mathlib

/-!
Verification of the Faddeev-LeVerrier eigenvalue core (tutorial notebook).

The source computes, for a square matrix `rho`:
  * `get_traces rho`      : the list `[Tr rho, Tr (rho^2), ..., Tr (rho^d)]`
    where `d` is the number of rows of `rho`;
  * `c_n_m n m tr`        : the naive recursive auxiliary of the
    Faddeev-LeVerrier algorithm,
    `c(0) = 1`, `c(m) = (sum over k in 1..m of c(m-k) * tr[k-1]) * (-1/m)`;
  * `compute_coefs n tr`  : the list `[1, c(1), ..., c(n)]` of characteristic
    polynomial coefficients (highest degree first);
finally the roots of the polynomial with the reversed coefficient list are the
eigenvalues.

The embedding is polymorphic in the scalar field `K` (the source works with
numpy float/complex arrays): `ℚ` is used for executable checks, `ℂ` for the
algebraic round-trip property.  Fallible operations (out-of-range indexing,
the squareness check performed by `np.linalg.matrix_power`) are modelled with
`Except FLErr`.
-/

/-- Errors that can arise in the embedded code: `invalidDimension` is the
error demanded by the spec (never produced by the source), `linAlgError`
models the error raised by `np.linalg.matrix_power` on a non-square input,
`indexError` models an out-of-range numpy array access. -/
inductive FLErr : Type
  | invalidDimension : FLErr
  | linAlgError : FLErr
  | indexError : FLErr
deriving DecidableEq, Repr

/-- Sum of a list of fallible values, first error wins (models a python
accumulation loop in which each iteration may raise). -/
def exceptSum {K : Type} [Field K] : List (Except FLErr K) → Except FLErr K
  | [] => .ok 0
  | e :: es => e.bind fun x => (exceptSum es).map fun s => x + s

/-- Embedding of the source function `c_n_m n m vec_of_traces`: the naive
recursive Faddeev-LeVerrier auxiliary.  The first argument `n` is accepted
and passed along but never used, exactly as in the source.  The loop
`for k in range(1, m+1)` accumulates `c_n_m n (m-k) tr * tr[k-1]`; the
result is the accumulated sum times `-1/m`.  An access `tr[k-1]` past the
end of `tr` is an `indexError`. -/
def c_n_m {K : Type} [Field K] (n : ℤ) (m : ℕ) (tr : List K) : Except FLErr K :=
  if hm : m = 0 then .ok 1
  else
    (exceptSum (((List.range m).attach).map fun j =>
      (c_n_m n (m - (j.1 + 1)) tr).bind fun c =>
        match tr.get? j.1 with
        | some t => .ok (c * t)
        | none => .error .indexError)).map fun s => s * (-1 / (m : K))
termination_by m
decreasing_by
  have := j.2
  simp only [List.mem_range] at this
  omega

/-- Embedding of the source function `compute_coefs n vec_of_traces`:
start from `[1]`, then append `c_n_m n m vec_of_traces` for
`m = 1, ..., n` (python `range(1, n+1)`, empty when `n < 1`). -/
def compute_coefs {K : Type} [Field K] (n : ℤ) (tr : List K) :
    Except FLErr (List K) :=
  (((List.range n.toNat).map (· + 1)).mapM fun m => c_n_m n m tr).map
    fun cs => 1 :: cs

/-- Embedding of the source function `get_traces rho` for a square matrix:
the loop `for i in range(rho.shape[0])` appends
`np.trace(np.linalg.matrix_power(rho, i+1))` to an initially empty list. -/
def get_traces {K : Type} [Field K] {d : ℕ} (rho : Matrix (Fin d) (Fin d) K) :
    List K :=
  (List.range d).foldl (fun traces i => traces ++ [Matrix.trace (rho ^ (i + 1))]) []

/-- The auxiliary recursion exactly as written in the spec (section 4.2):
`auxiliary 0 = 1` and, for `m ≥ 1`,
`auxiliary m = -(1/m) * sum over k in 1..m of auxiliary (m-k) * traces[k-1]`.
This is the total comparison function used to state the claims; out-of-range
reads default to `0` (they never occur under the stated hypotheses). -/
def auxSpec {K : Type} [Field K] (m : ℕ) (tr : List K) : K :=
  if hm : m = 0 then 1
  else
    -(1 / (m : K)) *
      (((List.range m).attach).map fun j =>
        auxSpec (m - (j.1 + 1)) tr * tr.getD j.1 0).sum
termination_by m
decreasing_by
  have := j.2
  simp only [List.mem_range] at this
  omega

/-- Identity matrix on row-lists of side `d` (used as the power-0 base of the
numpy integer matrix power). -/
def id_raw {K : Type} [Field K] (d : ℕ) : List (List K) :=
  (List.range d).map fun i => (List.range d).map fun j => if i = j then 1 else 0

/-- Matrix product on row-lists (library linear-algebra primitive). -/
def mat_mul_raw {K : Type} [Field K] (a b : List (List K)) : List (List K) :=
  a.map fun row =>
    (List.range (b.headD []).length).map fun j =>
      ((List.range row.length).map fun k =>
        row.getD k 0 * (b.getD k []).getD j 0).sum

/-- Iterated matrix product on row-lists. -/
def mat_pow_raw {K : Type} [Field K] (a : List (List K)) : ℕ → List (List K)
  | 0 => id_raw a.length
  | k + 1 => mat_mul_raw (mat_pow_raw a k) a

/-- Model of `np.linalg.matrix_power`: the library validates that the input
is square before doing anything else and raises `LinAlgError` otherwise. -/
def np_matrix_power {K : Type} [Field K] (a : List (List K)) (k : ℕ) :
    Except FLErr (List (List K)) :=
  if a.all fun row => row.length = a.length then .ok (mat_pow_raw a k)
  else .error .linAlgError

/-- Model of `np.trace`: sum of the diagonal entries. -/
def np_trace {K : Type} [Field K] (a : List (List K)) : K :=
  ((List.range a.length).map fun i => (a.getD i []).getD i 0).sum

/-- Embedding of the source function `get_traces rho` at the raw (untyped)
level, where the input need not be square: the loop runs
`for i in range(rho.shape[0])` and each iteration calls
`np.linalg.matrix_power(rho, i+1)`, which is where a non-square input
fails.  The function itself takes no dimension argument and performs no
validation of its own. -/
def get_traces_raw {K : Type} [Field K] (rho : List (List K)) :
    Except FLErr (List K) :=
  (List.range rho.length).mapM fun i => (np_matrix_power rho (i + 1)).map np_trace

/-- Cost model of the naive recursion: the number of invocations of `c_n_m`
(the initial one included) performed when evaluating `c_n_m` at second
argument `m`.  The loop always runs `k = 1..m` and recurses at `m - k`, so
the count depends on neither `n` nor the trace vector. -/
def c_n_m_calls (m : ℕ) : ℕ :=
  if hm : m = 0 then 1
  else 1 + (((List.range m).attach).map fun j => c_n_m_calls (m - (j.1 + 1))).sum
termination_by m
decreasing_by
  have := j.2
  simp only [List.mem_range] at this
  omega

/-- Total number of invocations of `c_n_m` performed by `compute_coefs` at
degree `d` (one top-level call for each `m = 1, ..., d`). -/
def compute_coefs_calls (d : ℕ) : ℕ :=
  ((List.range d).map fun j => c_n_m_calls (j + 1)).sum

/-- Modelled from the spec: the bottom-up dynamic-programming table of size
`d + 1` that the spec demands for `compute_coefficients` (the source has no
such table; it re-evaluates the recursion).  Entry `m` is computed from the
previously tabulated entries by the recursion of section 4.2. -/
def coefs_table {K : Type} [Field K] (d : ℕ) (tr : List K) : List K :=
  (List.range (d + 1)).foldl
    (fun (cs : List K) (m : ℕ) =>
      if m = 0 then cs ++ [1]
      else cs ++ [-(1 / (m : K)) *
        (((List.range m).map fun j => cs.getD (m - (j + 1)) 0 * tr.getD j 0).sum)])
    []

/-- Evaluation of a polynomial given by its coefficient list in lowest-degree
first order (the order accepted by `np.polynomial.polynomial.Polynomial`),
by the Horner scheme: `p(x) = cs[0] + x * (cs[1] + x * (...))`. -/
def poly_eval_low_first {K : Type} [Field K] (cs : List K) (x : K) : K :=
  cs.foldr (fun c acc => c + x * acc) 0

/-- The polynomial (as a `Polynomial`) determined by a coefficient list in
highest-degree-first order (the order produced by `compute_coefs`): the same
polynomial the source constructs by handing the reversed (lowest-first) list
to the numpy `Polynomial` constructor.  Built by the Horner scheme on the
highest-first list. -/
noncomputable def poly_of_coefs {K : Type} [Field K] (cs : List K) : Polynomial K :=
  cs.foldl (fun acc c => acc * Polynomial.X + Polynomial.C c) 0

theorem c_n_m_zero {K : Type} [Field K] (n : ℤ) (tr : List K) :
    c_n_m n 0 tr = .ok 1 := by
  rw [c_n_m]
  rfl

theorem auxSpec_zero {K : Type} [Field K] (tr : List K) :
    auxSpec (K := K) 0 tr = 1 := by
  rw [auxSpec]
  rfl

/-- On an in-range call, the embedded naive recursion succeeds and computes
exactly the value of the spec recursion. -/
theorem c_n_m_eq_auxSpec {K : Type} [Field K] (n : ℤ) (m : ℕ) (tr : List K)
    (h : m ≤ tr.length) : c_n_m n m tr = .ok (auxSpec m tr) := by
  induction m using Nat.strong_induction_on with
  | _ m ih =>
    by_cases hm : m = 0
    · subst hm
      rw [c_n_m_zero, auxSpec_zero]
    · rw [c_n_m, auxSpec, dif_neg hm, dif_neg hm]
      have hterms : (((List.range m).attach).map fun j =>
          (c_n_m n (m - (j.1 + 1)) tr).bind fun c =>
            match tr.get? j.1 with
            | some t => .ok (c * t)
            | none => .error .indexError) =
          ((List.range m).attach).map fun j =>
            Except.ok (auxSpec (m - (j.1 + 1)) tr * tr.getD j.1 0) := by
        apply List.map_congr_left
        rintro ⟨j, hj⟩ _
        simp only [List.mem_range] at hj
        have hrec : c_n_m n (m - (j + 1)) tr = .ok (auxSpec (m - (j + 1)) tr) :=
          ih _ (by omega) (by omega)
        have hjlen : j < tr.length := by omega
        have hget : tr.get? j = some tr[j] := by
          rw [List.get?_eq_getElem?, List.getElem?_eq_getElem hjlen]
        have hgetD : tr.getD j 0 = tr[j] := by
          rw [List.getD_eq_getElem?_getD, List.getElem?_eq_getElem hjlen]
          rfl
        rw [hrec, hget, hgetD]
        rfl
      rw [hterms]
      have hsum : ∀ {α : Type} (g : α → K) (L : List α),
          exceptSum (L.map fun x => Except.ok (g x)) = .ok ((L.map g).sum) := by
        intro α g L
        induction L with
        | nil => rfl
        | cons a L ihl => simp [exceptSum, ihl, Except.bind, Except.map]
      rw [hsum]
      simp only [Except.map]
      congr 1
      rw [mul_comm, neg_div]

/-- Mapping over `attach` with a function of the underlying value is mapping
over the list itself. -/
theorem map_attach_eq_map {α β : Type} (l : List α) (g : α → β) :
    (l.attach.map fun x => g x.1) = l.map g :=
  List.attach_map_val l g

/-- Unfolding of the spec recursion at a positive argument, stated over a
plain `map` over `range`. -/
theorem auxSpec_succ {K : Type} [Field K] (m : ℕ) (hm : m ≠ 0) (tr : List K) :
    auxSpec m tr =
      -(1 / (m : K)) *
        (((List.range m).map fun j => auxSpec (m - (j + 1)) tr * tr.getD j 0).sum) := by
  rw [auxSpec, dif_neg hm,
    List.attach_map_val (List.range m) fun j => auxSpec (m - (j + 1)) tr * tr.getD j 0]

/-- A `mapM` over `Except` in which every element succeeds produces the list
of the successful values. -/
theorem mapM_ok {β : Type} {α : Type} (L : List α)
    (f : α → Except FLErr β) (g : α → β) (h : ∀ x ∈ L, f x = .ok (g x)) :
    L.mapM f = .ok (L.map g) := by
  induction L with
  | nil => rfl
  | cons a L ihl =>
    rw [List.mapM_cons, h a (List.mem_cons_self a L),
      ihl fun x hx => h x (List.mem_cons_of_mem a hx)]
    rfl

/-- On an in-range trace vector, the embedded `compute_coefs` succeeds and
returns the list of values of the spec recursion at `m = 0, 1, ..., d`. -/
theorem compute_coefs_ok {K : Type} [Field K] (d : ℕ) (tr : List K)
    (hlen : d ≤ tr.length) :
    compute_coefs (d : ℤ) tr = .ok ((List.range (d + 1)).map (auxSpec · tr)) := by
  rw [compute_coefs]
  have htoNat : ((d : ℤ)).toNat = d := Int.toNat_natCast d
  rw [htoNat]
  rw [mapM_ok ((List.range d).map (· + 1)) _ (fun m => auxSpec m tr) ?_]
  · simp only [Except.map, List.range_succ_eq_map, List.map_cons, List.map_map,
      auxSpec_zero]
  · intro m hm
    simp only [List.mem_map, List.mem_range] at hm
    obtain ⟨j, hj, rfl⟩ := hm
    exact c_n_m_eq_auxSpec _ _ _ (by omega)

/-- Appending in a loop over `range` builds the corresponding `map`. -/
theorem foldl_append_eq_map {K : Type} (f : ℕ → K) :
    ∀ (L : List ℕ) (acc : List K),
      L.foldl (fun tr i => tr ++ [f i]) acc = acc ++ L.map f := by
  intro L
  induction L with
  | nil => simp
  | cons a L ihl =>
    intro acc
    rw [List.foldl_cons, ihl, List.map_cons]
    simp

/-- The trace loop produces the list of traces of successive powers. -/
theorem get_traces_eq_map {K : Type} [Field K] (d : ℕ)
    (rho : Matrix (Fin d) (Fin d) K) :
    get_traces rho = (List.range d).map fun i => Matrix.trace (rho ^ (i + 1)) := by
  rw [get_traces, foldl_append_eq_map]
  rfl

/-- Claim C1: for every `d ≥ 1` and every trace vector with at least `d`
entries, `compute_coefs d traces` returns a sequence of exactly `d + 1`
entries whose entry `0` is exactly `1` and whose entry `m` (`1 ≤ m ≤ d`)
equals the value `auxSpec m traces` of the spec recursion
`auxiliary 0 = 1`, `auxiliary m = -(1/m) * sum of auxiliary (m-k) * traces[k-1]`. -/
theorem C1_compute_coefs_functional_correctness (d : ℕ) (tr : List ℚ)
    (hd : 1 ≤ d) (hlen : d ≤ tr.length) :
    ∃ l, compute_coefs (d : ℤ) tr = .ok l ∧ l.length = d + 1 ∧
      l.get? 0 = some 1 ∧ ∀ m, 1 ≤ m → m ≤ d → l.get? m = some (auxSpec m tr) := by
  refine ⟨_, compute_coefs_ok d tr hlen, ?_, ?_, ?_⟩
  · simp
  · have h0 : (0 : ℕ) < d + 1 := by omega
    rw [List.get?_eq_getElem?, List.getElem?_map, List.getElem?_range h0]
    simp [auxSpec_zero]
  · intro m h1 h2
    have hm : m < d + 1 := by omega
    rw [List.get?_eq_getElem?, List.getElem?_map, List.getElem?_range hm]
    rfl

/-- Witness for C1 at `d = 2`, `traces = [2, 3]`. -/
theorem C1_witness :
    (1 : ℕ) ≤ 2 ∧ (2 : ℕ) ≤ ([2, 3] : List ℚ).length ∧
      ∃ l, compute_coefs ((2 : ℕ) : ℤ) ([2, 3] : List ℚ) = .ok l ∧
        l.length = 2 + 1 ∧ l.get? 0 = some 1 ∧
        ∀ m, 1 ≤ m → m ≤ 2 → l.get? m = some (auxSpec m ([2, 3] : List ℚ)) :=
  ⟨by norm_num, by norm_num,
    C1_compute_coefs_functional_correctness 2 [2, 3] (by norm_num) (by norm_num)⟩

/-- Claim C2: for every square matrix of side length `d ≥ 1`, `get_traces`
returns a sequence of exactly `d` entries whose `i`-th entry (1-based,
increasing `i`) is the trace of the `i`-th power of the matrix. -/
theorem C2_get_traces_functional_correctness (d : ℕ) (hd : 1 ≤ d)
    (rho : Matrix (Fin d) (Fin d) ℚ) :
    (get_traces rho).length = d ∧
      ∀ i, 1 ≤ i → i ≤ d →
        (get_traces rho).get? (i - 1) = some (Matrix.trace (rho ^ i)) := by
  rw [get_traces_eq_map]
  constructor
  · simp
  · intro i h1 h2
    have hi : i - 1 < d := by omega
    rw [List.get?_eq_getElem?, List.getElem?_map, List.getElem?_range hi]
    have : i - 1 + 1 = i := by omega
    simp only [Option.map_some']
    rw [this]

/-- Witness for C2 at `d = 1`, `rho = [[3]]`. -/
theorem C2_witness :
    (1 : ℕ) ≤ 1 ∧
      ((get_traces (Matrix.of ![![(3 : ℚ)]])).length = 1 ∧
        ∀ i, 1 ≤ i → i ≤ 1 →
          (get_traces (Matrix.of ![![(3 : ℚ)]])).get? (i - 1) =
            some (Matrix.trace (Matrix.of ![![(3 : ℚ)]] ^ i))) :=
  ⟨by norm_num, C2_get_traces_functional_correctness 1 (by norm_num) _⟩

/-- Claim C9: the result of `c_n_m n m tr` does not depend on the first
argument `n`: the source accepts `n` and passes it to the recursive calls
but never reads it. -/
theorem C9_c_n_m_independent_of_n (n n' : ℤ) (m : ℕ) (tr : List ℚ) :
    c_n_m n m tr = c_n_m n' m tr := by
  induction m using Nat.strong_induction_on with
  | _ m ih =>
    by_cases hm : m = 0
    · subst hm
      rw [c_n_m_zero, c_n_m_zero]
    · conv_lhs => rw [c_n_m]
      conv_rhs => rw [c_n_m]
      rw [dif_neg hm, dif_neg hm]
      congr 2
      apply List.map_congr_left
      rintro ⟨j, hj⟩ _
      simp only [List.mem_range] at hj
      rw [ih (m - (j + 1)) (by omega)]


/-- Unfolding of the embedded naive recursion at a positive argument, stated
over a plain `map` over `range`. -/
theorem c_n_m_succ_eq {K : Type} [Field K] (n : ℤ) (m : ℕ) (hm : m ≠ 0)
    (tr : List K) :
    c_n_m n m tr =
      (exceptSum ((List.range m).map fun j =>
        (c_n_m n (m - (j + 1)) tr).bind fun c =>
          match tr.get? j with
          | some t => .ok (c * t)
          | none => .error .indexError)).map fun s => s * (-1 / (m : K)) := by
  rw [c_n_m, dif_neg hm,
    List.attach_map_val (List.range m) fun j =>
      (c_n_m n (m - (j + 1)) tr).bind fun c =>
        match tr.get? j with
        | some t => .ok (c * t)
        | none => .error .indexError]

/-- The embedded recursion at `m = 1` returns the negation of the first
trace. -/
theorem c_n_m_one {K : Type} [Field K] (n : ℤ) (tr : List K) (t0 : K)
    (h : tr.get? 0 = some t0) : c_n_m n 1 tr = .ok (-t0) := by
  rw [c_n_m_succ_eq n 1 one_ne_zero tr]
  have h1 : List.range 1 = [0] := rfl
  rw [h1, List.map_cons, List.map_nil, c_n_m_zero, h]
  simp only [exceptSum, Except.bind, Except.map]
  congr 1
  push_cast
  ring

/-- Claim C10: whenever `compute_coefs` returns at all (with `d ≥ 1` and a
nonempty trace vector), entry `1` of the returned coefficient list is the
negation of the first trace. -/
theorem C10_coefficient_one_is_neg_first_trace (d : ℤ) (tr : List ℚ) (t0 : ℚ)
    (l : List ℚ) (hd : 1 ≤ d) (h0 : tr.get? 0 = some t0)
    (hl : compute_coefs d tr = .ok l) : l.get? 1 = some (-t0) := by
  rw [compute_coefs] at hl
  obtain ⟨k, hk⟩ : ∃ k, d.toNat = k + 1 := ⟨d.toNat - 1, by omega⟩
  rw [hk, List.range_succ_eq_map, List.map_cons, List.mapM_cons,
    c_n_m_one d tr t0 h0] at hl
  cases hmm : (((List.range k).map Nat.succ).map (· + 1)).mapM
      fun m => c_n_m d m tr with
  | error e =>
    rw [hmm] at hl
    exact absurd hl (by intro hcon; cases hcon)
  | ok cs =>
    rw [hmm] at hl
    have : l = 1 :: -t0 :: cs := by
      have := hl
      simp only [Except.map] at this
      cases this
      rfl
    rw [this]
    rfl

/-- Witness for C10 at `d = 1`, `traces = [5]`. -/
theorem C10_witness :
    (1 : ℤ) ≤ ((1 : ℕ) : ℤ) ∧ ([5] : List ℚ).get? 0 = some 5 ∧
      compute_coefs ((1 : ℕ) : ℤ) ([5] : List ℚ) =
        .ok ((List.range (1 + 1)).map (auxSpec · ([5] : List ℚ))) ∧
      ((List.range (1 + 1)).map (auxSpec · ([5] : List ℚ))).get? 1 = some (-5) :=
  ⟨by norm_num, rfl, compute_coefs_ok 1 [5] (by norm_num),
    C10_coefficient_one_is_neg_first_trace ((1 : ℕ) : ℤ) [5] 5 _ (by norm_num) rfl
      (compute_coefs_ok 1 [5] (by norm_num))⟩

/-- With a degree below one, the loop of `compute_coefs` is empty and the
function returns `[1]` with no error. -/
theorem compute_coefs_nonpos {K : Type} [Field K] (d : ℤ) (hd : d < 1)
    (tr : List K) : compute_coefs d tr = .ok [1] := by
  rw [compute_coefs, Int.toNat_of_nonpos (by omega)]
  rfl

/-- Counterexample to claim C7: at `d = 0` (hence `d < 1`) the source does
not fail with `InvalidDimension`; it returns the single-entry list `[1]`. -/
theorem C7_counterexample :
    compute_coefs (0 : ℤ) ([] : List ℚ) = .ok [1] ∧
      compute_coefs (0 : ℤ) ([] : List ℚ) ≠ .error .invalidDimension := by
  refine ⟨compute_coefs_nonpos 0 (by norm_num) [], ?_⟩
  rw [compute_coefs_nonpos 0 (by norm_num) []]
  intro h
  cases h

/-- An error in the accumulation loop propagates (elements before it all
succeed). -/
theorem exceptSum_error {K : Type} [Field K] (er : FLErr) :
    ∀ (l₁ l₂ : List (Except FLErr K)),
      (∀ x ∈ l₁, ∃ v, x = .ok v) →
      exceptSum (l₁ ++ .error er :: l₂) = .error er := by
  intro l₁
  induction l₁ with
  | nil => intro l₂ _; rfl
  | cons a l ih =>
    intro l₂ h
    obtain ⟨v, rfl⟩ := h a (List.mem_cons_self a l)
    rw [List.cons_append]
    show ((exceptSum (l ++ .error er :: l₂)).map fun s => v + s) = _
    rw [ih l₂ fun x hx => h x (List.mem_cons_of_mem _ hx)]
    rfl

/-- Evaluating the naive recursion one past the length of the trace vector
hits the out-of-range access `tr[length]` in the last loop iteration. -/
theorem c_n_m_overflow {K : Type} [Field K] (n : ℤ) (tr : List K) :
    c_n_m n (tr.length + 1) tr = .error .indexError := by
  rw [c_n_m_succ_eq n (tr.length + 1) (by omega) tr, List.range_succ,
    List.map_append, List.map_cons, List.map_nil]
  have hnone : tr.get? tr.length = none := by
    rw [List.get?_eq_getElem?]
    exact List.getElem?_eq_none (le_refl _)
  have h0 : tr.length + 1 - (tr.length + 1) = 0 := by omega
  rw [hnone, h0, c_n_m_zero]
  have hlast : ((Except.ok (1 : K)).bind fun c =>
      (match (none : Option K) with
        | some t => Except.ok (c * t)
        | none => Except.error FLErr.indexError)) = .error .indexError := rfl
  rw [hlast, exceptSum_error .indexError _ [] ?_]
  · rfl
  · intro x hx
    simp only [List.mem_map, List.mem_range] at hx
    obtain ⟨j, hj, rfl⟩ := hx
    have hrec : c_n_m n (tr.length + 1 - (j + 1)) tr =
        .ok (auxSpec (tr.length + 1 - (j + 1)) tr) :=
      c_n_m_eq_auxSpec n _ tr (by omega)
    have hget : tr.get? j = some tr[j] := by
      rw [List.get?_eq_getElem?, List.getElem?_eq_getElem hj]
    rw [hrec, hget]
    exact ⟨_, rfl⟩

/-- A `mapM` over `Except` whose elements succeed up to an element that
fails produces that failure. -/
theorem mapM_append_error {α β : Type} (f : α → Except FLErr β) (er : FLErr) :
    ∀ (l₁ : List α) (a : α) (l₂ : List α),
      (∀ x ∈ l₁, ∃ v, f x = .ok v) → f a = .error er →
      (l₁ ++ a :: l₂).mapM f = .error er := by
  intro l₁
  induction l₁ with
  | nil =>
    intro a l₂ _ ha
    rw [List.nil_append, List.mapM_cons, ha]
    rfl
  | cons x l ih =>
    intro a l₂ h ha
    obtain ⟨v, hv⟩ := h x (List.mem_cons_self x l)
    rw [List.cons_append, List.mapM_cons, hv,
      ih a l₂ (fun y hy => h y (List.mem_cons_of_mem x hy)) ha]
    rfl

/-- Claim C7 amended: `compute_coefs` performs no validation at all.  For
`d < 1` the loop is empty and the call returns `[1]` successfully; for a
trace vector shorter than the (positive) degree the call fails with the
out-of-range index error of the underlying array access, not with
`InvalidDimension`. -/
theorem C7_amended_no_validation :
    (∀ (d : ℤ) (tr : List ℚ), d < 1 → compute_coefs d tr = .ok [1]) ∧
    (∀ (d : ℤ) (tr : List ℚ), 1 ≤ d → (tr.length : ℤ) < d →
      compute_coefs d tr = .error .indexError) := by
  constructor
  · intro d tr hd
    exact compute_coefs_nonpos d hd tr
  · intro d tr hd hlen
    rw [compute_coefs]
    obtain ⟨r, hr⟩ : ∃ r, d.toNat = (tr.length + 1) + r :=
      ⟨d.toNat - (tr.length + 1), by omega⟩
    rw [hr, List.range_add, List.map_append, List.range_succ, List.map_append,
      List.map_cons, List.map_nil, List.append_assoc, List.cons_append,
      List.nil_append]
    rw [mapM_append_error (fun m => c_n_m d m tr) .indexError _ _ _ ?_ ?_]
    · rfl
    · intro x hx
      simp only [List.mem_map, List.mem_range] at hx
      obtain ⟨j, hj, rfl⟩ := hx
      exact ⟨_, c_n_m_eq_auxSpec d (j + 1) tr (by omega)⟩
    · exact c_n_m_overflow d tr

/-- Witness for the amended C7 at `d = 2` with the single-entry trace
vector `[3]`. -/
theorem C7_amended_witness :
    ((0 : ℤ) < 1 ∧ compute_coefs (0 : ℤ) ([3] : List ℚ) = .ok [1]) ∧
      ((1 : ℤ) ≤ 2 ∧ ((([3] : List ℚ).length : ℤ) < 2) ∧
        compute_coefs (2 : ℤ) ([3] : List ℚ) = .error .indexError) :=
  ⟨⟨by norm_num, C7_amended_no_validation.1 0 [3] (by norm_num)⟩,
    ⟨by norm_num, by norm_num,
      C7_amended_no_validation.2 2 [3] (by norm_num) (by norm_num)⟩⟩

/-- Counterexample to claim C6: on the concrete non-square input `[[1, 2]]`
the source does not fail with `InvalidDimension` (that error never occurs);
the failure is the library error of `np.linalg.matrix_power`, raised inside
the first loop iteration. -/
theorem C6_counterexample :
    get_traces_raw [[(1 : ℚ), 2]] = .error .linAlgError ∧
      get_traces_raw [[(1 : ℚ), 2]] ≠ .error .invalidDimension := by
  constructor
  · rfl
  · intro h
    rw [show get_traces_raw [[(1 : ℚ), 2]] = .error .linAlgError from rfl] at h
    cases h

/-- Claim C6 amended: `get_traces` takes no dimension argument (so a mismatch
with a declared dimension cannot arise) and performs no eager validation of
its own; on a nonempty non-square input it propagates the `LinAlgError` of
the first `np.linalg.matrix_power` call, and on a square input it succeeds. -/
theorem C6_amended_no_eager_validation :
    (∀ rho : List (List ℚ), rho ≠ [] →
      (rho.all fun row => row.length = rho.length) = false →
      get_traces_raw rho = .error .linAlgError) ∧
    (∀ rho : List (List ℚ),
      (rho.all fun row => row.length = rho.length) = true →
      get_traces_raw rho =
        .ok ((List.range rho.length).map fun i => np_trace (mat_pow_raw rho (i + 1)))) := by
  constructor
  · intro rho hne hsq
    rw [get_traces_raw]
    obtain ⟨k, hk⟩ : ∃ k, rho.length = k + 1 := by
      cases rho with
      | nil => exact absurd rfl hne
      | cons r rest => exact ⟨rest.length, rfl⟩
    rw [hk, List.range_succ_eq_map, List.mapM_cons]
    rw [show np_matrix_power rho (0 + 1) = .error .linAlgError from by
      rw [np_matrix_power, if_neg (by rw [hsq]; intro hcon; cases hcon)]]
    rfl
  · intro rho hsq
    rw [get_traces_raw]
    rw [mapM_ok _ _ (fun i => np_trace (mat_pow_raw rho (i + 1))) ?_]
    intro i _
    rw [np_matrix_power, if_pos hsq]
    rfl

/-- Witness for the amended C6: the non-square `[[1, 2]]` gives the library
error, the square `[[1, 2], [3, 4]]` succeeds. -/
theorem C6_amended_witness :
    (([[(1 : ℚ), 2]] : List (List ℚ)) ≠ [] ∧
      ((([[(1 : ℚ), 2]] : List (List ℚ)).all fun row =>
        row.length = ([[(1 : ℚ), 2]] : List (List ℚ)).length) = false) ∧
      get_traces_raw ([[(1 : ℚ), 2]] : List (List ℚ)) = .error .linAlgError) ∧
    (((([[(1 : ℚ), 2], [3, 4]] : List (List ℚ)).all fun row =>
        row.length = ([[(1 : ℚ), 2], [3, 4]] : List (List ℚ)).length) = true) ∧
      get_traces_raw ([[(1 : ℚ), 2], [3, 4]] : List (List ℚ)) =
        .ok ((List.range ([[(1 : ℚ), 2], [3, 4]] : List (List ℚ)).length).map
          fun i => np_trace (mat_pow_raw ([[(1 : ℚ), 2], [3, 4]] : List (List ℚ)) (i + 1)))) :=
  ⟨⟨(by intro h; cases h), (by decide),
      C6_amended_no_eager_validation.1 [[(1 : ℚ), 2]] (by intro h; cases h) (by decide)⟩,
    ⟨(by decide),
      C6_amended_no_eager_validation.2 [[(1 : ℚ), 2], [3, 4]] (by decide)⟩⟩

/-- Geometric sum appearing in the call count of the naive recursion. -/
theorem sum_two_pow_range (m : ℕ) :
    ((List.range m).map fun j => 2 ^ (m - (j + 1))).sum = 2 ^ m - 1 := by
  induction m with
  | zero => rfl
  | succ m ih =>
    rw [List.range_succ_eq_map, List.map_cons, List.map_map, List.sum_cons]
    have hcomp : ((fun j => 2 ^ (m + 1 - (j + 1))) ∘ Nat.succ) =
        fun j => 2 ^ (m - (j + 1)) := by
      funext j
      simp only [Function.comp_apply]
      congr 1
      omega
    rw [hcomp, ih]
    have h1 : 1 ≤ 2 ^ m := Nat.one_le_two_pow
    have h2 : m + 1 - (0 + 1) = m := by omega
    rw [h2]
    omega

/-- The naive recursion of the source performs exactly `2 ^ m` invocations of
`c_n_m` when evaluated at `m`: exponential, because nothing is cached. -/
theorem c_n_m_calls_eq_two_pow : ∀ m, c_n_m_calls m = 2 ^ m := by
  intro m
  induction m using Nat.strong_induction_on with
  | _ m ih =>
    by_cases hm : m = 0
    · subst hm
      rw [c_n_m_calls]
      rfl
    · rw [c_n_m_calls, dif_neg hm,
        List.attach_map_val (List.range m) fun j => c_n_m_calls (m - (j + 1))]
      have hcong : ((List.range m).map fun j => c_n_m_calls (m - (j + 1))) =
          (List.range m).map fun j => 2 ^ (m - (j + 1)) := by
        apply List.map_congr_left
        intro j hj
        simp only [List.mem_range] at hj
        exact ih _ (by omega)
      rw [hcong, sum_two_pow_range]
      have h1 : 1 ≤ 2 ^ m := Nat.one_le_two_pow
      omega

/-- Reading back an in-range entry of a mapped `range`. -/
theorem getD_map_range {K : Type} (t i : ℕ) (hi : i < t) (f : ℕ → K) (y : K) :
    ((List.range t).map f).getD i y = f i := by
  rw [List.getD_eq_getElem?_getD, List.getElem?_map, List.getElem?_range hi]
  rfl

/-- The bottom-up table demanded by the spec tabulates exactly the values of
the spec recursion. -/
theorem coefs_table_eq_map_auxSpec {K : Type} [Field K] (d : ℕ) (tr : List K) :
    coefs_table d tr = (List.range (d + 1)).map fun m => auxSpec m tr := by
  rw [coefs_table]
  suffices h : ∀ t : ℕ,
      (List.range t).foldl
        (fun (cs : List K) (m : ℕ) =>
          if m = 0 then cs ++ [1]
          else cs ++ [-(1 / (m : K)) *
            (((List.range m).map fun j => cs.getD (m - (j + 1)) 0 * tr.getD j 0).sum)])
        [] = (List.range t).map fun m => auxSpec m tr from h (d + 1)
  intro t
  induction t with
  | zero => rfl
  | succ t ih =>
    rw [List.range_succ, List.foldl_append, ih, List.foldl_cons, List.foldl_nil,
      List.map_append, List.map_cons, List.map_nil]
    by_cases ht : t = 0
    · subst ht
      rw [if_pos rfl]
      simp [auxSpec_zero]
    · rw [if_neg ht]
      congr 2
      rw [auxSpec_succ t ht]
      congr 1
      congr 1
      apply List.map_congr_left
      intro j hj
      simp only [List.mem_range] at hj
      rw [getD_map_range t (t - (j + 1)) (by omega) (fun m => auxSpec m tr) 0]

/-- Counterexample to claim C4: the source caches nothing.  Evaluating
`compute_coefs` at `d = 6` performs `2 + 4 + ... + 2^6 = 126` invocations of
`c_n_m`, where a memoizing or tabulating implementation would evaluate the
auxiliary at most `d + 1 = 7` times: the same arguments are re-evaluated
exponentially often. -/
theorem C4_counterexample :
    compute_coefs_calls 6 = 126 ∧ ¬ compute_coefs_calls 6 ≤ 6 + 1 := by
  have h : compute_coefs_calls 6 = 126 := by
    rw [compute_coefs_calls]
    have hcong : ((List.range 6).map fun j => c_n_m_calls (j + 1)) =
        (List.range 6).map fun j => 2 ^ (j + 1) :=
      List.map_congr_left fun j _ => c_n_m_calls_eq_two_pow (j + 1)
    rw [hcong]
    decide
  exact ⟨h, by omega⟩

/-- Claim C4 amended: the source does not cache at all (the naive recursion
performs exactly `2 ^ m` calls at argument `m`); nevertheless the bottom-up
dynamic-programming table of size `d + 1` described by the spec computes
values identical to the naive unmemoized recursion for every `m ≤ d`, i.e.
`compute_coefs` returns exactly the table. -/
theorem C4_table_refines_naive_recursion :
    (∀ m : ℕ, c_n_m_calls m = 2 ^ m) ∧
    (∀ (d : ℕ) (tr : List ℚ), d ≤ tr.length →
      compute_coefs (d : ℤ) tr = .ok (coefs_table d tr)) := by
  refine ⟨c_n_m_calls_eq_two_pow, ?_⟩
  intro d tr h
  rw [compute_coefs_ok d tr h, coefs_table_eq_map_auxSpec]

/-- Witness for the amended C4 at `d = 2`, `traces = [2, 3]`. -/
theorem C4_witness :
    (2 : ℕ) ≤ ([2, 3] : List ℚ).length ∧
      compute_coefs ((2 : ℕ) : ℤ) ([2, 3] : List ℚ) = .ok (coefs_table 2 [2, 3]) :=
  ⟨by norm_num, C4_table_refines_naive_recursion.2 2 [2, 3] (by norm_num)⟩

/-- The spec recursion at `m = 1` is the negated first trace. -/
theorem auxSpec_one {K : Type} [Field K] (tr : List K) :
    auxSpec 1 tr = -(tr.getD 0 0) := by
  rw [auxSpec_succ 1 one_ne_zero]
  have h1 : List.range 1 = [0] := rfl
  rw [h1, List.map_cons, List.map_nil, List.sum_cons, List.sum_nil, auxSpec_zero]
  push_cast
  ring

/-- Claim C8: for `d = 1` and the 1-by-1 matrix `[[a]]`, the trace vector is
`[a]`, the coefficient vector is `[1, -a]`, and the single root of the
resulting polynomial (evaluated on the reversed coefficient list, as handed
to the solver) is `a`. -/
theorem C8_dimension_one_boundary (a : ℚ) :
    get_traces (Matrix.of ![![a]]) = [a] ∧
    compute_coefs ((1 : ℕ) : ℤ) (get_traces (Matrix.of ![![a]])) = .ok [1, -a] ∧
    ∀ x : ℚ, poly_eval_low_first ([1, -a] : List ℚ).reverse x = 0 ↔ x = a := by
  have htr : get_traces (Matrix.of ![![a]]) = [a] := by
    rw [get_traces_eq_map]
    have h1 : List.range 1 = [0] := rfl
    rw [h1, List.map_cons, List.map_nil, zero_add, pow_one]
    congr 1
    rw [Matrix.trace]
    simp [Matrix.diag]
  refine ⟨htr, ?_, ?_⟩
  · rw [htr, compute_coefs_ok 1 [a] (by norm_num)]
    have h2 : List.range 2 = [0, 1] := rfl
    rw [h2, List.map_cons, List.map_cons, List.map_nil, auxSpec_zero, auxSpec_one]
    rfl
  · intro x
    have hp : poly_eval_low_first ([1, -a] : List ℚ).reverse x =
        -a + x * (1 + x * 0) := rfl
    have hq : -a + x * (1 + x * 0) = x - a := by ring
    rw [hp, hq, sub_eq_zero]

/-- The polynomial the source hands to the solver for the concrete degree-4
coefficient list of the C3 scenario, written out as an explicit quartic. -/
theorem C3_poly_repr (x : ℝ) :
    poly_eval_low_first
      ((([1, -1, 2814/10000, -247/10000, 64298/100000000] : List ℚ)).reverse.map
        fun q => (q : ℝ)) x =
      x^4 - x^3 + (2814/10000)*x^2 - (247/10000)*x + 64298/100000000 := by
  show ((64298/100000000 : ℚ) : ℝ) + x * (((-247/10000 : ℚ) : ℝ) +
      x * (((2814/10000 : ℚ) : ℝ) + x * (((-1 : ℚ) : ℝ) + x * (((1 : ℚ) : ℝ) + x * 0)))) = _
  push_cast
  ring

/-- On the rounded trace vector `[1, 0.4372, 0.2299, 0.1290]` of the C3
scenario, the coefficients computed by the source are exactly
`[1, -1, 0.2814, -0.0247, 0.00064298]` (exact rational arithmetic). -/
theorem coefs_exact_on_rounded_traces :
    compute_coefs (4 : ℤ) ([1, 4372/10000, 2299/10000, 1290/10000] : List ℚ) =
      .ok ([1, -1, 2814/10000, -247/10000, 64298/100000000] : List ℚ) := by
  have hcast : ((4 : ℕ) : ℤ) = (4 : ℤ) := by norm_num
  rw [← hcast,
    compute_coefs_ok 4 ([1, 4372/10000, 2299/10000, 1290/10000] : List ℚ) (by norm_num)]
  have h5 : List.range (4 + 1) = [0, 1, 2, 3, 4] := rfl
  have a0 : auxSpec (K := ℚ) 0 [1, 4372/10000, 2299/10000, 1290/10000] = 1 :=
    auxSpec_zero _
  have a1 : auxSpec (K := ℚ) 1 [1, 4372/10000, 2299/10000, 1290/10000] = -1 := by
    rw [auxSpec_one]
    norm_num
  have a2 : auxSpec (K := ℚ) 2 [1, 4372/10000, 2299/10000, 1290/10000] =
      2814/10000 := by
    rw [auxSpec_succ 2 (by norm_num)]
    have h2 : List.range 2 = [0, 1] := rfl
    rw [h2, List.map_cons, List.map_cons, List.map_nil, List.sum_cons,
      List.sum_cons, List.sum_nil, a1, a0]
    norm_num
  have a3 : auxSpec (K := ℚ) 3 [1, 4372/10000, 2299/10000, 1290/10000] =
      -247/10000 := by
    rw [auxSpec_succ 3 (by norm_num)]
    have h3 : List.range 3 = [0, 1, 2] := rfl
    rw [h3, List.map_cons, List.map_cons, List.map_cons, List.map_nil,
      List.sum_cons, List.sum_cons, List.sum_cons, List.sum_nil, a2, a1, a0]
    norm_num
  have a4 : auxSpec (K := ℚ) 4 [1, 4372/10000, 2299/10000, 1290/10000] =
      64298/100000000 := by
    rw [auxSpec_succ 4 (by norm_num)]
    have h4 : List.range 4 = [0, 1, 2, 3] := rfl
    rw [h4, List.map_cons, List.map_cons, List.map_cons, List.map_cons,
      List.map_nil, List.sum_cons, List.sum_cons, List.sum_cons, List.sum_cons,
      List.sum_nil, a3, a2, a1, a0]
    norm_num
  rw [h5, List.map_cons, List.map_cons, List.map_cons, List.map_cons,
    List.map_cons, List.map_nil, a0, a1, a2, a3, a4]

/-- The quartic of the C3 scenario has no root within `1e-4` of `0.0502`:
it is strictly negative on the whole interval. -/
theorem no_root_near_0502 :
    ∀ x : ℝ, |x - 502/10000| ≤ 1/10000 →
      poly_eval_low_first
        ((([1, -1, 2814/10000, -247/10000, 64298/100000000] : List ℚ)).reverse.map
          fun q => (q : ℝ)) x ≠ 0 := by
  intro x hx
  rw [C3_poly_repr x]
  rw [abs_le] at hx
  have h1 : (501/10000 : ℝ) ≤ x := by linarith [hx.1]
  have h2 : x ≤ (503/10000 : ℝ) := by linarith [hx.2]
  have hneg : x^4 - x^3 + (2814/10000)*x^2 - (247/10000)*x + 64298/100000000 < 0 := by
    nlinarith [mul_nonneg (sub_nonneg.2 h1) (sub_nonneg.2 h2), sq_nonneg (x - 502/10000),
      sq_nonneg x, sq_nonneg (x*x)]
  intro hzero
  rw [hzero] at hneg
  exact absurd hneg (by norm_num)

/-- Counterexample to claim C3: on the rounded trace vector
`[1, 0.4372, 0.2299, 0.1290]` the coefficients are exactly
`[1, -1, 0.2814, -0.0247, 0.00064298]`, and the resulting polynomial has NO
root within `1e-4` of the claimed root `0.0502` (its smallest root sits near
`0.0481`). -/
theorem C3_counterexample :
    compute_coefs (4 : ℤ) ([1, 4372/10000, 2299/10000, 1290/10000] : List ℚ) =
      .ok ([1, -1, 2814/10000, -247/10000, 64298/100000000] : List ℚ) ∧
    (∀ x : ℝ, |x - 502/10000| ≤ 1/10000 →
      poly_eval_low_first
        ((([1, -1, 2814/10000, -247/10000, 64298/100000000] : List ℚ)).reverse.map
          fun q => (q : ℝ)) x ≠ 0) :=
  ⟨coefs_exact_on_rounded_traces, no_root_near_0502⟩

/-- Claim C3 amended: on the rounded trace vector `[1, 0.4372, 0.2299,
0.1290]` the computed coefficients are exactly `[1, -1, 0.2814, -0.0247,
0.00064298]` (so all five are within `1e-4` of the claimed values, the first
four exactly), but the polynomial built from them does NOT have roots within
`1e-4` of the three claimed values `0.0502`, `0.0784`, `0.2793`: its roots
lie in `[0.0481, 0.0485]`, `[0.0805, 0.0810]`, `[0.2785, 0.2790]`, and only
the largest root is within `1e-4` of the claimed `0.5921`.  (The claimed
values are the roots for the original unrounded traces, which the rounded
input does not reproduce.) -/
theorem C3_concrete_scenario_corrected :
    (compute_coefs (4 : ℤ) ([1, 4372/10000, 2299/10000, 1290/10000] : List ℚ) =
      .ok ([1, -1, 2814/10000, -247/10000, 64298/100000000] : List ℚ)) ∧
    |(64298/100000000 : ℚ) - 65/100000| ≤ 1/10000 ∧
    (∃ x : ℝ, poly_eval_low_first
        ((([1, -1, 2814/10000, -247/10000, 64298/100000000] : List ℚ)).reverse.map
          fun q => (q : ℝ)) x = 0 ∧ 481/10000 ≤ x ∧ x ≤ 485/10000) ∧
    (∃ x : ℝ, poly_eval_low_first
        ((([1, -1, 2814/10000, -247/10000, 64298/100000000] : List ℚ)).reverse.map
          fun q => (q : ℝ)) x = 0 ∧ 805/10000 ≤ x ∧ x ≤ 810/10000) ∧
    (∃ x : ℝ, poly_eval_low_first
        ((([1, -1, 2814/10000, -247/10000, 64298/100000000] : List ℚ)).reverse.map
          fun q => (q : ℝ)) x = 0 ∧ 2785/10000 ≤ x ∧ x ≤ 2790/10000) ∧
    (∃ x : ℝ, poly_eval_low_first
        ((([1, -1, 2814/10000, -247/10000, 64298/100000000] : List ℚ)).reverse.map
          fun q => (q : ℝ)) x = 0 ∧ |x - 5921/10000| ≤ 1/10000) ∧
    (∀ x : ℝ, |x - 502/10000| ≤ 1/10000 →
      poly_eval_low_first
        ((([1, -1, 2814/10000, -247/10000, 64298/100000000] : List ℚ)).reverse.map
          fun q => (q : ℝ)) x ≠ 0) ∧
    (∀ x : ℝ, |x - 784/10000| ≤ 1/10000 →
      poly_eval_low_first
        ((([1, -1, 2814/10000, -247/10000, 64298/100000000] : List ℚ)).reverse.map
          fun q => (q : ℝ)) x ≠ 0) ∧
    (∀ x : ℝ, |x - 2793/10000| ≤ 1/10000 →
      poly_eval_low_first
        ((([1, -1, 2814/10000, -247/10000, 64298/100000000] : List ℚ)).reverse.map
          fun q => (q : ℝ)) x ≠ 0) := by
  have hfun : ∀ x : ℝ, poly_eval_low_first
      ((([1, -1, 2814/10000, -247/10000, 64298/100000000] : List ℚ)).reverse.map
        fun q => (q : ℝ)) x =
      x^4 - x^3 + (2814/10000)*x^2 - (247/10000)*x + 64298/100000000 :=
    C3_poly_repr
  have hcont : ∀ a b : ℝ, ContinuousOn
      (fun x : ℝ => x^4 - x^3 + (2814/10000)*x^2 - (247/10000)*x + 64298/100000000)
      (Set.Icc a b) := by
    intro a b
    apply Continuous.continuousOn
    fun_prop
  have hroot_dec : ∀ a b : ℝ, a ≤ b →
      (b^4 - b^3 + (2814/10000)*b^2 - (247/10000)*b + 64298/100000000 ≤ 0) →
      (0 ≤ a^4 - a^3 + (2814/10000)*a^2 - (247/10000)*a + 64298/100000000) →
      ∃ x : ℝ, poly_eval_low_first
        ((([1, -1, 2814/10000, -247/10000, 64298/100000000] : List ℚ)).reverse.map
          fun q => (q : ℝ)) x = 0 ∧ a ≤ x ∧ x ≤ b := by
    intro a b hab hb ha
    obtain ⟨x, hx, hgx⟩ := intermediate_value_Icc' hab (hcont a b) ⟨hb, ha⟩
    exact ⟨x, by rw [hfun x]; exact hgx, hx.1, hx.2⟩
  have hroot_inc : ∀ a b : ℝ, a ≤ b →
      (a^4 - a^3 + (2814/10000)*a^2 - (247/10000)*a + 64298/100000000 ≤ 0) →
      (0 ≤ b^4 - b^3 + (2814/10000)*b^2 - (247/10000)*b + 64298/100000000) →
      ∃ x : ℝ, poly_eval_low_first
        ((([1, -1, 2814/10000, -247/10000, 64298/100000000] : List ℚ)).reverse.map
          fun q => (q : ℝ)) x = 0 ∧ a ≤ x ∧ x ≤ b := by
    intro a b hab ha hb
    obtain ⟨x, hx, hgx⟩ := intermediate_value_Icc hab (hcont a b) ⟨ha, hb⟩
    exact ⟨x, by rw [hfun x]; exact hgx, hx.1, hx.2⟩
  refine ⟨coefs_exact_on_rounded_traces, by rw [abs_le]; constructor <;> norm_num,
    ?_, ?_, ?_, ?_, no_root_near_0502, ?_, ?_⟩
  · exact hroot_dec (481/10000) (485/10000) (by norm_num) (by norm_num) (by norm_num)
  · exact hroot_inc (805/10000) (810/10000) (by norm_num) (by norm_num) (by norm_num)
  · exact hroot_dec (2785/10000) (2790/10000) (by norm_num) (by norm_num) (by norm_num)
  · obtain ⟨x, hx, h1, h2⟩ :=
      hroot_inc (5920/10000) (5922/10000) (by norm_num) (by norm_num) (by norm_num)
    refine ⟨x, hx, ?_⟩
    rw [abs_le]
    constructor <;> linarith
  · intro x hx
    rw [hfun x]
    rw [abs_le] at hx
    have h1 : (783/10000 : ℝ) ≤ x := by linarith [hx.1]
    have h2 : x ≤ (785/10000 : ℝ) := by linarith [hx.2]
    have hneg : x^4 - x^3 + (2814/10000)*x^2 - (247/10000)*x + 64298/100000000 < 0 := by
      nlinarith [mul_nonneg (sub_nonneg.2 h1) (sub_nonneg.2 h2), sq_nonneg (x - 784/10000),
        sq_nonneg x, sq_nonneg (x*x)]
    intro hzero
    rw [hzero] at hneg
    exact absurd hneg (by norm_num)
  · intro x hx
    rw [hfun x]
    rw [abs_le] at hx
    have h1 : (2792/10000 : ℝ) ≤ x := by linarith [hx.1]
    have h2 : x ≤ (2794/10000 : ℝ) := by linarith [hx.2]
    have hneg : x^4 - x^3 + (2814/10000)*x^2 - (247/10000)*x + 64298/100000000 < 0 := by
      nlinarith [mul_nonneg (sub_nonneg.2 h1) (sub_nonneg.2 h2), sq_nonneg (x - 2793/10000),
        sq_nonneg x, sq_nonneg (x*x)]
    intro hzero
    rw [hzero] at hneg
    exact absurd hneg (by norm_num)

open Polynomial

theorem eval_charpoly_eq_det {R : Type} [CommRing R] {n : Type} [DecidableEq n] [Fintype n]
    (A : Matrix n n R) (t : R) :
    (Matrix.charpoly A).eval t = Matrix.det (t • (1 : Matrix n n R) - A) := by
  rw [Matrix.charpoly, ← Polynomial.coe_evalRingHom, RingHom.map_det]
  congr 1
  ext i j
  by_cases h : i = j
  · subst h
    simp [Matrix.charmatrix_apply_eq, Matrix.one_apply]
  · simp [Matrix.charmatrix_apply_ne _ _ _ h, Matrix.one_apply_ne h, h]

theorem toMatrix_col_zero_of_eigen {K V : Type} [Field K] [AddCommGroup V] [Module K V]
    {n : ℕ} (b : Basis (Fin (n + 1)) K V) (f : V →ₗ[K] V) (lam : K)
    (hf : f (b 0) = lam • b 0) (i : Fin (n + 1)) :
    LinearMap.toMatrix b b f i 0 = if i = 0 then lam else 0 := by
  rw [LinearMap.toMatrix_apply, hf, LinearEquiv.map_smul, Basis.repr_self,
    Finsupp.smul_apply, Finsupp.single_apply]
  by_cases hi : i = 0
  · subst hi
    simp
  · simp [hi, Ne.symm hi]

theorem toMatrix_pow {K V : Type} [Field K] [AddCommGroup V] [Module K V]
    {ι : Type} [Fintype ι] [DecidableEq ι] (b : Basis ι K V) (f : V →ₗ[K] V) (j : ℕ) :
    (LinearMap.toMatrix b b f) ^ j = LinearMap.toMatrix b b (f ^ j) := by
  induction j with
  | zero => rw [pow_zero, pow_zero, LinearMap.toMatrix_one]
  | succ j ihj => rw [pow_succ, pow_succ, ihj, ← LinearMap.toMatrix_mul]

theorem trace_pow_toMatrix_eq {K V : Type} [Field K] [AddCommGroup V] [Module K V]
    {ι ι₂ : Type} [Fintype ι] [DecidableEq ι] [Fintype ι₂] [DecidableEq ι₂]
    (b : Basis ι K V) (b₂ : Basis ι₂ K V) (f : V →ₗ[K] V) (j : ℕ) :
    Matrix.trace ((LinearMap.toMatrix b b f) ^ j) =
      Matrix.trace ((LinearMap.toMatrix b₂ b₂ f) ^ j) := by
  rw [toMatrix_pow, toMatrix_pow, ← LinearMap.trace_eq_matrix_trace K b (f ^ j),
    ← LinearMap.trace_eq_matrix_trace K b₂ (f ^ j)]

theorem trace_pow_eq_sum_pow_roots {K : Type} [Field K] [IsAlgClosed K] :
    ∀ (d : ℕ) (A : Matrix (Fin d) (Fin d) K) (k : ℕ),
      Matrix.trace (A ^ k) = ((Matrix.charpoly A).roots.map (· ^ k)).sum := by
  intro d
  induction d with
  | zero =>
    intro A k
    have h1 : Matrix.charpoly A = 1 := by
      rw [Matrix.charpoly, Matrix.det_isEmpty]
    rw [h1, Polynomial.roots_one]
    simp [Matrix.trace]
  | succ n ih =>
    intro A k
    -- an eigenvalue exists
    have hdeg : (Matrix.charpoly A).degree ≠ 0 := by
      rw [Matrix.charpoly_degree_eq_dim, Fintype.card_fin]
      exact_mod_cast Nat.succ_ne_zero n
    obtain ⟨lam, hlam⟩ := IsAlgClosed.exists_root _ hdeg
    have hdet0 : Matrix.det (lam • (1 : Matrix (Fin (n+1)) (Fin (n+1)) K) - A) = 0 := by
      rw [← eval_charpoly_eq_det]
      exact hlam
    obtain ⟨v, hv0, hvec⟩ := Matrix.exists_mulVec_eq_zero_iff.2 hdet0
    have hAv : A.mulVec v = lam • v := by
      rw [Matrix.sub_mulVec, sub_eq_zero] at hvec
      rw [← hvec, Matrix.smul_mulVec_assoc, Matrix.one_mulVec]
    -- extend the eigenvector to a basis with the eigenvector at position 0
    have hvLI : LinearIndependent K
        (fun y => (y : Fin (n+1) → K) : ({v} : Set (Fin (n+1) → K)) → Fin (n+1) → K) :=
      linearIndependent_singleton hv0
    let bex := Basis.extend hvLI
    haveI hfty : Fintype (hvLI.extend (Set.subset_univ ({v} : Set (Fin (n+1) → K)))) :=
      FiniteDimensional.fintypeBasisIndex bex
    have hcard : Fintype.card
        (hvLI.extend (Set.subset_univ ({v} : Set (Fin (n+1) → K)))) = n + 1 := by
      have h1 := Module.finrank_eq_card_basis bex
      rw [Module.finrank_fin_fun] at h1
      exact h1.symm
    have hvmem : v ∈ hvLI.extend (Set.subset_univ ({v} : Set (Fin (n+1) → K))) :=
      hvLI.subset_extend _ (Set.mem_singleton v)
    let e0 := Fintype.equivFinOfCardEq hcard
    let e := e0.trans (Equiv.swap (e0 ⟨v, hvmem⟩) 0)
    let b := bex.reindex e
    have hb0 : b 0 = v := by
      rw [Basis.reindex_apply]
      have hsymm : e.symm 0 = ⟨v, hvmem⟩ := by
        show (e0.trans (Equiv.swap (e0 ⟨v, hvmem⟩) 0)).symm 0 = ⟨v, hvmem⟩
        rw [Equiv.symm_trans_apply, Equiv.symm_swap, Equiv.swap_apply_right,
          Equiv.symm_apply_apply]
      rw [hsymm]
      exact Basis.extend_apply_self hvLI ⟨v, hvmem⟩
    let f := Matrix.toLin' A
    have hA : A = LinearMap.toMatrix (Pi.basisFun K (Fin (n+1)))
        (Pi.basisFun K (Fin (n+1))) f := by
      rw [LinearMap.toMatrix_eq_toMatrix']
      exact (LinearMap.toMatrix'_toLin' A).symm
    have hfb : f (b 0) = lam • b 0 := by
      rw [hb0]
      show Matrix.toLin' A v = lam • v
      rw [Matrix.toLin'_apply]
      exact hAv
    set B := LinearMap.toMatrix b b f with hBdef
    have hBcol : ∀ i, B i 0 = if i = 0 then lam else 0 :=
      toMatrix_col_zero_of_eigen b f lam hfb
    -- the characteristic polynomial is basis independent
    have hcp : Matrix.charpoly B = Matrix.charpoly A := by
      rw [hBdef, LinearMap.charpoly_toMatrix f b, hA]
      exact (LinearMap.charpoly_toMatrix f _).symm
    -- traces of powers are basis independent
    have htr : Matrix.trace (A ^ k) = Matrix.trace (B ^ k) := by
      rw [hBdef]
      conv_lhs => rw [hA]
      exact trace_pow_toMatrix_eq _ b f k
    -- block structure of powers of B
    have hstruct : ∀ j : ℕ,
        (∀ i, (B ^ j) i 0 = if i = 0 then lam ^ j else 0) ∧
        (B ^ j).submatrix Fin.succ Fin.succ =
          (B.submatrix Fin.succ Fin.succ) ^ j := by
      intro j
      induction j with
      | zero =>
        refine ⟨fun i => ?_, ?_⟩
        · rw [pow_zero, pow_zero, Matrix.one_apply]
        · rw [pow_zero, pow_zero]
          ext i j
          simp only [Matrix.submatrix_apply, Matrix.one_apply]
          by_cases h : i = j
          · subst h
            simp
          · have hs : Fin.succ i ≠ Fin.succ j := fun hc => h (Fin.succ_injective _ hc)
            simp [h, hs]
      | succ j ihj =>
        obtain ⟨ihcol, ihsub⟩ := ihj
        refine ⟨fun i => ?_, ?_⟩
        · rw [pow_succ, Matrix.mul_apply, Fin.sum_univ_succ]
          have hB00 : B 0 0 = lam := by rw [hBcol 0]; simp
          have hBs0 : ∀ l : Fin n, B (Fin.succ l) 0 = 0 := fun l => by
            rw [hBcol]
            simp [Fin.succ_ne_zero]
          simp only [hBs0, mul_zero, Finset.sum_const_zero, add_zero]
          rw [ihcol i, hB00]
          by_cases hi : i = 0
          · subst hi
            simp [pow_succ]
          · simp [hi]
        · ext i j'
          rw [Matrix.submatrix_apply, pow_succ, pow_succ, Matrix.mul_apply,
            Matrix.mul_apply, Fin.sum_univ_succ]
          have h0 : (B ^ j) (Fin.succ i) 0 = 0 := by
            rw [ihcol]
            simp [Fin.succ_ne_zero]
          rw [h0, zero_mul, zero_add]
          apply Finset.sum_congr rfl
          intro l _
          rw [← ihsub]
          rfl
    -- trace of a power of B splits off lam ^ j
    have htrB : Matrix.trace (B ^ k) =
        lam ^ k + Matrix.trace ((B.submatrix Fin.succ Fin.succ) ^ k) := by
      obtain ⟨hcol, hsub⟩ := hstruct k
      rw [Matrix.trace, Matrix.trace, Fin.sum_univ_succ]
      congr 1
      · rw [Matrix.diag_apply, hcol 0]
        simp
      · apply Finset.sum_congr rfl
        intro i _
        rw [Matrix.diag_apply, Matrix.diag_apply, ← hsub]
        rfl
    -- the characteristic polynomial factors
    have hcharB : Matrix.charpoly B =
        (X - C lam) * Matrix.charpoly (B.submatrix Fin.succ Fin.succ) := by
      rw [Matrix.charpoly, Matrix.det_succ_column_zero, Fin.sum_univ_succ]
      have hcm0 : Matrix.charmatrix B 0 0 = X - C lam := by
        rw [Matrix.charmatrix_apply_eq]
        have hB00 : B 0 0 = lam := by rw [hBcol 0]; simp
        rw [hB00]
      have hcms : ∀ i : Fin n, Matrix.charmatrix B (Fin.succ i) 0 = 0 := fun i => by
        rw [Matrix.charmatrix_apply_ne _ _ _ (Fin.succ_ne_zero i)]
        have hB0 : B (Fin.succ i) 0 = 0 := by
          rw [hBcol]
          simp [Fin.succ_ne_zero]
        rw [hB0, map_zero, neg_zero]
      simp only [hcms, zero_mul, mul_zero, Finset.sum_const_zero, add_zero]
      rw [hcm0, Fin.succAbove_zero]
      have hsub : (Matrix.charmatrix B).submatrix Fin.succ Fin.succ =
          Matrix.charmatrix (B.submatrix Fin.succ Fin.succ) := by
        ext i j
        by_cases h : i = j
        · subst h
          simp [Matrix.submatrix_apply, Matrix.charmatrix_apply_eq]
        · have hs : Fin.succ i ≠ Fin.succ j := fun hc => h (Fin.succ_injective _ hc)
          simp [Matrix.submatrix_apply, Matrix.charmatrix_apply_ne _ _ _ h,
            Matrix.charmatrix_apply_ne _ _ _ hs]
      rw [hsub, ← Matrix.charpoly]
      simp
    -- roots split off lam
    have hroots : (Matrix.charpoly A).roots =
        lam ::ₘ (Matrix.charpoly (B.submatrix Fin.succ Fin.succ)).roots := by
      rw [← hcp, hcharB, Polynomial.roots_mul, Polynomial.roots_X_sub_C,
        Multiset.singleton_add]
      exact mul_ne_zero (Polynomial.X_sub_C_ne_zero lam)
        (Matrix.charpoly_monic _).ne_zero
    rw [htr, htrB, hroots, Multiset.map_cons, Multiset.sum_cons,
      ih (B.submatrix Fin.succ Fin.succ) k]

theorem list_map_range_sum {M : Type} [AddCommMonoid M] (n : ℕ) (f : ℕ → M) :
    ((List.range n).map f).sum = ∑ i ∈ Finset.range n, f i := by
  rw [Finset.sum_eq_multiset_sum, Finset.range_val]
  rfl

theorem multiset_newton {K : Type} [CommRing K] (s : Multiset K) (k : ℕ) :
    (k : K) * s.esymm k =
    (-1) ^ (k + 1) * ∑ a ∈ (Finset.antidiagonal k).filter (fun a => a.1 < k),
      (-1) ^ a.1 * s.esymm a.1 * (s.map (· ^ a.2)).sum := by
  have h := congrArg (MvPolynomial.aeval s.toList.get)
    (MvPolynomial.mul_esymm_eq_sum (Fin s.toList.length) K k)
  have huniv : (Finset.univ.val.map s.toList.get) = s := by
    rw [Fin.univ_val_map, List.ofFn_get, Multiset.coe_toList]
  have hesymm : ∀ n : ℕ, MvPolynomial.aeval s.toList.get
      (MvPolynomial.esymm (Fin s.toList.length) K n) = s.esymm n := by
    intro n
    rw [MvPolynomial.aeval_esymm_eq_multiset_esymm, huniv]
  have hpsum : ∀ n : ℕ, MvPolynomial.aeval s.toList.get
      (MvPolynomial.psum (Fin s.toList.length) K n) = (s.map (· ^ n)).sum := by
    intro n
    rw [MvPolynomial.psum, map_sum]
    have heach : ∀ i : Fin s.toList.length,
        MvPolynomial.aeval s.toList.get (MvPolynomial.X (R := K) i ^ n) =
          (s.toList.get i) ^ n := by
      intro i
      simp
    rw [Finset.sum_congr rfl fun i _ => heach i]
    conv_rhs => rw [← huniv]
    rw [Multiset.map_map, Finset.sum_eq_multiset_sum]
    rfl
  rw [map_mul, map_natCast, hesymm] at h
  rw [h, map_mul, map_pow, map_neg, map_one, map_sum]
  congr 1
  apply Finset.sum_congr rfl
  intro a _
  rw [map_mul, map_mul, map_pow, map_neg, map_one, hesymm, hpsum]


theorem multiset_esymm_zero {K : Type} [CommRing K] (s : Multiset K) : s.esymm 0 = 1 := by
  simp [Multiset.esymm, Multiset.powersetCard_zero_left]

theorem auxSpec_eq_esymm {K : Type} [Field K] [CharZero K] (d : ℕ) (s : Multiset K)
    (tr : List K)
    (htr : ∀ j, j < d → tr.getD j 0 = (s.map (· ^ (j + 1))).sum) :
    ∀ m, m ≤ d → auxSpec m tr = (-1) ^ m * s.esymm m := by
  intro m
  induction m using Nat.strong_induction_on with
  | _ m ih =>
    intro hmd
    by_cases hm : m = 0
    · subst hm
      rw [auxSpec_zero, multiset_esymm_zero]
      norm_num
    · rw [auxSpec_succ m hm]
      have hterm : ((List.range m).map fun j => auxSpec (m - (j + 1)) tr * tr.getD j 0) =
          (List.range m).map fun j => (-1) ^ (m - (j + 1)) * s.esymm (m - (j + 1)) *
            (s.map (· ^ (j + 1))).sum := by
        apply List.map_congr_left
        intro j hj
        simp only [List.mem_range] at hj
        rw [ih (m - (j + 1)) (by omega) (by omega), htr j (by omega)]
      rw [hterm, list_map_range_sum]
      have hnewton := multiset_newton s m
      have hanti : ∑ a ∈ (Finset.antidiagonal m).filter (fun a => a.1 < m),
          (-1 : K) ^ a.1 * s.esymm a.1 * (s.map (· ^ a.2)).sum =
          ∑ i ∈ Finset.range m, (-1 : K) ^ i * s.esymm i * (s.map (· ^ (m - i))).sum := by
        rw [Finset.sum_filter, Finset.Nat.sum_antidiagonal_eq_sum_range_succ
          (fun i j => if i < m then (-1 : K) ^ i * s.esymm i * (s.map (· ^ j)).sum else 0) m]
        rw [Finset.sum_range_succ, if_neg (lt_irrefl m), add_zero]
        apply Finset.sum_congr rfl
        intro i hi
        simp only [Finset.mem_range] at hi
        rw [if_pos hi]
      have hreflect : ∑ i ∈ Finset.range m, ((-1 : K) ^ (m - (i + 1)) * s.esymm (m - (i + 1)) *
            (s.map (· ^ (i + 1))).sum) =
          ∑ i ∈ Finset.range m, (-1 : K) ^ i * s.esymm i * (s.map (· ^ (m - i))).sum := by
        rw [← Finset.sum_range_reflect
          (fun i => (-1 : K) ^ i * s.esymm i * (s.map (· ^ (m - i))).sum) m]
        apply Finset.sum_congr rfl
        intro j hj
        simp only [Finset.mem_range] at hj
        have h1 : m - 1 - j = m - (j + 1) := by omega
        rw [h1]
        rw [show m - (m - (j + 1)) = j + 1 from by omega]
      have hm0 : (m : K) ≠ 0 := Nat.cast_ne_zero.mpr hm
      have hS : (∑ a ∈ (Finset.antidiagonal m).filter (fun a => a.1 < m),
          (-1 : K) ^ a.1 * s.esymm a.1 * (s.map (· ^ a.2)).sum) =
          (-1 : K) ^ (m + 1) * ((m : K) * s.esymm m) := by
        rw [hnewton, ← mul_assoc, ← pow_add]
        have heven : ((-1 : K)) ^ (m + 1 + (m + 1)) = 1 :=
          Even.neg_one_pow ⟨m + 1, rfl⟩
        rw [heven, one_mul]
      rw [hreflect, ← hanti, hS]
      field_simp
      ring

/-- Appending one coefficient to the Horner fold multiplies by `X` and adds
the constant. -/
theorem poly_of_coefs_append {K : Type} [Field K] (L : List K) (c : K) :
    poly_of_coefs (L ++ [c]) = poly_of_coefs L * X + C c := by
  rw [poly_of_coefs, poly_of_coefs, List.foldl_append, List.foldl_cons, List.foldl_nil]

/-- The polynomial of a highest-first coefficient list given by a function on
`range (n+1)`: entry `i` multiplies `X ^ (n - i)`. -/
theorem poly_of_coefs_range_map {K : Type} [Field K] (g : ℕ → K) (n : ℕ) :
    poly_of_coefs ((List.range (n + 1)).map g) =
      ∑ i ∈ Finset.range (n + 1), Polynomial.C (g i) * Polynomial.X ^ (n - i) := by
  induction n with
  | zero =>
    rw [show (List.range 1).map g = [g 0] from rfl]
    simp [poly_of_coefs]
  | succ n ihn =>
    have hsplit : (List.range (n + 1 + 1)).map g =
        ((List.range (n + 1)).map g) ++ [g (n + 1)] := by
      rw [List.range_succ, List.map_append]
      rfl
    rw [hsplit, poly_of_coefs_append, ihn]
    conv_rhs => rw [Finset.sum_range_succ]
    rw [Finset.sum_mul]
    congr 1
    · apply Finset.sum_congr rfl
      intro i hi
      simp only [Finset.mem_range] at hi
      rw [mul_assoc, ← pow_succ]
      rw [show n - i + 1 = n + 1 - i from by omega]
    · rw [Nat.sub_self, pow_zero, mul_one]

/-- Claim C5: the algebraic round trip of the source pipeline, in exact
arithmetic over `ℂ` (which subsumes any floating tolerance).  For every
square matrix `A`: `compute_coefs` on the trace powers of `A` succeeds, the
polynomial with those coefficients IS the characteristic polynomial of `A`,
hence its root multiset coincides with the eigenvalue multiset delivered by
an eigen-decomposition (the roots of the characteristic polynomial, with
multiplicity); in particular the sum of the returned eigenvalues is the
trace of `A`, the first trace-power entry. -/
theorem C5_round_trip_eigenvalues (d : ℕ) (A : Matrix (Fin d) (Fin d) ℂ) :
    ∃ cs : List ℂ,
      compute_coefs (d : ℤ) (get_traces A) = .ok cs ∧
      poly_of_coefs cs = Matrix.charpoly A ∧
      (poly_of_coefs cs).roots = (Matrix.charpoly A).roots ∧
      (poly_of_coefs cs).roots.sum = Matrix.trace A ∧
      (0 < d → (get_traces A).get? 0 = some (Matrix.trace A)) := by
  have hlen : (get_traces A).length = d := by
    rw [get_traces_eq_map]
    simp
  refine ⟨_, compute_coefs_ok d (get_traces A) (le_of_eq hlen.symm), ?_⟩
  have hsplits : (Matrix.charpoly A).Splits (RingHom.id ℂ) :=
    IsAlgClosed.splits_codomain _
  have hndeg : (Matrix.charpoly A).natDegree = d := by
    rw [Matrix.charpoly_natDegree_eq_dim, Fintype.card_fin]
  have hcards : Multiset.card (Matrix.charpoly A).roots = d := by
    rw [Polynomial.splits_iff_card_roots.mp hsplits, hndeg]
  have htr : ∀ j, j < d → (get_traces A).getD j 0 =
      (((Matrix.charpoly A).roots).map (· ^ (j + 1))).sum := by
    intro j hj
    rw [get_traces_eq_map, getD_map_range d j hj]
    exact trace_pow_eq_sum_pow_roots d A (j + 1)
  have hcoef : ∀ m, m ≤ d → auxSpec m (get_traces A) =
      (-1) ^ m * ((Matrix.charpoly A).roots).esymm m :=
    auxSpec_eq_esymm d (Matrix.charpoly A).roots (get_traces A) htr
  have hpoly : poly_of_coefs ((List.range (d + 1)).map
      fun m => auxSpec m (get_traces A)) = Matrix.charpoly A := by
    rw [poly_of_coefs_range_map]
    have hrefl := Finset.sum_range_reflect
      (fun i => Polynomial.C ((-1 : ℂ) ^ (d - i) *
        ((Matrix.charpoly A).roots).esymm (d - i)) * Polynomial.X ^ i) (d + 1)
    have hstep : ∑ i ∈ Finset.range (d + 1),
        Polynomial.C (auxSpec i (get_traces A)) * Polynomial.X ^ (d - i) =
        ∑ i ∈ Finset.range (d + 1),
        Polynomial.C ((-1 : ℂ) ^ (d - i) *
          ((Matrix.charpoly A).roots).esymm (d - i)) * Polynomial.X ^ i := by
      rw [← hrefl]
      apply Finset.sum_congr rfl
      intro j hj
      simp only [Finset.mem_range] at hj
      rw [hcoef j (by omega)]
      rw [show d + 1 - 1 - j = d - j from by omega]
      rw [show d - (d - j) = j from by omega]
    rw [hstep]
    have hco : ∀ i, i ≤ d → (-1 : ℂ) ^ (d - i) *
        ((Matrix.charpoly A).roots).esymm (d - i) = (Matrix.charpoly A).coeff i := by
      intro i hi
      rw [Polynomial.coeff_eq_esymm_roots_of_splits hsplits (by omega : i ≤ (Matrix.charpoly A).natDegree)]
      rw [(Matrix.charpoly_monic A).leadingCoeff, hndeg, one_mul]
    have hfinal : ∑ i ∈ Finset.range (d + 1),
        Polynomial.C ((-1 : ℂ) ^ (d - i) *
          ((Matrix.charpoly A).roots).esymm (d - i)) * Polynomial.X ^ i =
        ∑ i ∈ Finset.range (d + 1),
        Polynomial.C ((Matrix.charpoly A).coeff i) * Polynomial.X ^ i := by
      apply Finset.sum_congr rfl
      intro i hi
      simp only [Finset.mem_range] at hi
      rw [hco i (by omega)]
    rw [hfinal]
    have := Polynomial.as_sum_range_C_mul_X_pow (Matrix.charpoly A)
    rw [hndeg] at this
    exact this.symm
  refine ⟨hpoly, by rw [hpoly], ?_, ?_⟩
  · rw [hpoly]
    exact (Matrix.trace_eq_sum_roots_charpoly A).symm
  · intro hd
    rw [get_traces_eq_map]
    obtain ⟨n, rfl⟩ : ∃ n, d = n + 1 := ⟨d - 1, by omega⟩
    rw [List.range_succ_eq_map, List.map_cons]
    rw [show (0 : ℕ) + 1 = 1 from rfl, pow_one]
    rfl
